import Mathlib

/-!
Verification of the ranking-evaluation metrics core of the `arcs` repository:
DCG/NDCG (`arcs/evaluation.py`, `arcs/measure_ndcg.py`), Krippendorff's alpha
(`arcs/krippendorff_alpha.py`) and the precision statistic
(`arcs/summarize_results.py`).

Python floats are modelled as real numbers for the logarithm-based ranking
metrics, and as rational numbers for the purely field-arithmetic agreement
computation.  Python `ZeroDivisionError` is modelled with `Except`: an
operation that divides by zero produces `Except.error PyError.zeroDivision`.
-/

namespace Arcs

/-- The only failure mode of the modelled code: Python `ZeroDivisionError`. -/
inductive PyError where
  | zeroDivision
deriving DecidableEq

/-! ### arcs/evaluation.py -/

/-- `dcg(judgments, indices)` from `arcs/evaluation.py`:
`sum([(2**j - 1) / log(i + 2, 2) for (i, j) in zip(indices, judgments)])`.
Judgments are numeric (floats), indices are 0-based result positions. -/
noncomputable def dcg (judgments : List ℝ) (indices : List ℕ) : ℝ :=
  ((indices.zip judgments).map
    (fun p => ((2:ℝ) ^ p.2 - 1) / Real.logb 2 ((p.1 : ℝ) + 2))).sum

/-- Python `sorted(judgments, reverse=True)`: the judgments in descending
order. -/
noncomputable def sortDesc (judgments : List ℝ) : List ℝ :=
  judgments.insertionSort (· ≥ ·)

/-- `ndcg(judgments, indices=None, ideal_judgments=None)` from
`arcs/evaluation.py`.  `indices` defaults to `range(len(judgments))` when
`None`, `ideal_judgments` to `sorted(judgments, reverse=True)` when `None`;
the result is `dcg(judgments, indices) / dcg(ideal_judgments, indices)`,
raising `ZeroDivisionError` when the denominator is zero. -/
noncomputable def ndcg (judgments : List ℝ) (indices : Option (List ℕ))
    (ideal_judgments : Option (List ℝ)) : Except PyError ℝ :=
  let idx := indices.getD (List.range judgments.length)
  let ideal := ideal_judgments.getD (sortDesc judgments)
  if dcg ideal idx = 0 then .error .zeroDivision
  else .ok (dcg judgments idx / dcg ideal idx)

/-! ### arcs/measure_ndcg.py -/

/-- `_calc_dcg(judgments, indices)` from `arcs/measure_ndcg.py`; its body is
identical to `dcg` in `arcs/evaluation.py`. -/
noncomputable def calc_dcg (judgments : List ℝ) (indices : List ℕ) : ℝ :=
  ((indices.zip judgments).map
    (fun p => ((2:ℝ) ^ p.2 - 1) / Real.logb 2 ((p.1 : ℝ) + 2))).sum

/-- The index-defaulting lines of `compute_ndcg`:
`if not indices: indices = range(len(iterable))` — Python falsiness replaces
both `None` and an empty list by the default range. -/
def resolveIndices (iterable : List ℝ) (indices : Option (List ℕ)) : List ℕ :=
  match indices with
  | none => List.range iterable.length
  | some l => if l.isEmpty then List.range iterable.length else l

/-- `compute_ndcg(iterable, acceptable_responses, indices)` from
`arcs/measure_ndcg.py`.  The ideal order is the input sorted descending; a
`ZeroDivisionError` in `dcg/idcg` is caught and `None` is returned
(`acceptable_responses` is never read by the function body). -/
noncomputable def compute_ndcg (iterable : List ℝ)
    (_acceptable_responses : List ℝ) (indices : Option (List ℕ)) : Option ℝ :=
  let idx := resolveIndices iterable indices
  let d := calc_dcg iterable idx
  let ideal_order := sortDesc iterable
  let idcg := calc_dcg ideal_order idx
  if idcg = 0 then none else some (d / idcg)

/-! ### arcs/krippendorff_alpha.py

The file is Python 2: `/` on two ints is floor division, which matters in
`ordinal_metric`.  Ratings (produced by `convert_items`) are modelled as
rationals; `ordinal_metric` operates on integer ranks (its `xrange` demands
ints, as produced by `intify_floats`). -/

/-- `nominal_metric(a, b)`: `a != b`, with the boolean used as a number. -/
def nominal_metric (a b : ℚ) : ℚ :=
  if a ≠ b then 1 else 0

/-- `interval_metric(a, b)`: `(a-b)**2`. -/
def interval_metric (a b : ℚ) : ℚ :=
  (a - b) ^ 2

/-- `ratio_metric(a, b)`: `((a-b)/(a+b))**2`. -/
def ratio_metric (a b : ℚ) : ℚ :=
  ((a - b) / (a + b)) ^ 2

/-- Python 2 `xrange(a, b)`: the integers `a, a+1, ..., b-1`. -/
def xrange (a b : ℤ) : List ℤ :=
  (List.range (b - a).toNat).map (fun k : ℕ => a + (k : ℤ))

/-- `ordinal_metric(a, b)`: the pair is sorted, `sub = (a + b)/2` (Python 2
floor division on ints), and the result is
`sum([x - sub for x in xrange(a, b)])**2`. -/
def ordinal_metric (a b : ℤ) : ℤ :=
  let lo := min a b
  let hi := max a b
  let sub := (lo + hi).fdiv 2
  ((xrange lo hi).map (fun x => x - sub)).sum ^ 2

/-- `intify_floats(d)`: `int(float(d)*100)`; Python `int()` truncates toward
zero. -/
def intify_floats (d : ℚ) : ℤ :=
  if 0 ≤ d * 100 then ⌊d * 100⌋ else ⌈d * 100⌉

/-- The generator sum `sum(metric(gi, gj) for gi in g1 for gj in g2)` used in
both disagreement loops of `krippendorff_alpha`: every ordered pair is
compared, including self-comparisons. -/
def pairSum (metric : ℚ → ℚ → ℚ) (g1 g2 : List ℚ) : ℚ :=
  (g1.map (fun gi => (g2.map (fun gj => metric gi gj)).sum)).sum

/-- The unit-filtering line of `krippendorff_alpha`:
`units = dict((idx, rating) ... if len(rating) > 1)` — units with fewer than
two (non-missing) ratings are dropped. -/
def alphaUnits (data : List (List ℚ)) : List (List ℚ) :=
  data.filter (fun u => 1 < u.length)

/-- `krippendorff_alpha(data, metric)` from `arcs/krippendorff_alpha.py`,
taking the units in their preprocessed form: `data` lists, for each unit, the
non-missing ratings collected for it (the values of the `units` dict; every
sum in the source iterates over those values, so the dict keys and their
order are irrelevant to the result).  The single-rating filter, the
accumulation of `Do` and `De` by `+=` loops, and the order of the three
Python divisions (by `num_judgements`, by `num_judgements*(num_judgements-1)`,
and `Do/De`) are kept; a zero divisor raises. -/
def krippendorff_alpha (data : List (List ℚ)) (metric : ℚ → ℚ → ℚ) :
    Except PyError ℚ :=
  let units := alphaUnits data
  let num_judgements : ℕ := (units.map List.length).sum
  let DoRaw : ℚ := units.foldl
    (fun acc grades => acc + pairSum metric grades grades / ((grades.length : ℚ) - 1)) 0
  if num_judgements = 0 then .error .zeroDivision else
  let Do := DoRaw / (num_judgements : ℚ)
  let DeRaw : ℚ := units.foldl
    (fun acc grades => units.foldl (fun acc2 g2 => acc2 + pairSum metric grades g2) acc) 0
  if (num_judgements : ℚ) * ((num_judgements : ℚ) - 1) = 0 then .error .zeroDivision else
  let De := DeRaw / ((num_judgements : ℚ) * ((num_judgements : ℚ) - 1))
  if De = 0 then .error .zeroDivision else
  .ok (1 - Do / De)

/-! ### arcs/summarize_results.py — precision -/

/-- A pandas comparison `judgment >= t` on a nullable judgment cell: a null
(`None`/`NaN`) compares as false. -/
def judgmentGe (j : Option ℚ) (t : ℚ) : Bool :=
  match j with
  | some x => t ≤ x
  | none => false

/-- `precision(judged_data)` from `arcs/summarize_results.py`, with a row
modelled by its nullable `judgment` cell.  The function builds two filtered
frames (dropping nulls, then dropping negative judgments) but its `return`
line uses the unfiltered `judged_data` for both the `>= 1` count and the
denominator, so both dead frames are reproduced here as unused bindings. -/
def precision (judged_data : List (Option ℚ)) : Except PyError ℚ :=
  let _judged_group_df₁ := judged_data.filter (fun j => j.isSome)
  let _judged_group_df₂ := judged_data.filter (fun j => judgmentGe j 0)
  if judged_data.length = 0 then .error .zeroDivision
  else .ok (((judged_data.filter (fun j => judgmentGe j 1)).length : ℚ) /
    (judged_data.length : ℚ))

/-! ### Definitions following the specification text (for comparison against
the code) -/

/-- Modelled from the spec text of C7: «sum over the ranks strictly between
the two compared rank values, of the distance of each such rank from the
midpoint, squared» — ranks strictly between `a` and `b`, true (non-floored)
midpoint, absolute distance, with the sum squared. -/
def specOrdinalMetric (a b : ℤ) : ℚ :=
  ((Finset.Ioo (min a b) (max a b)).sum
    (fun x => |(x : ℚ) - ((a : ℚ) + (b : ℚ)) / 2|)) ^ 2

/-- Modelled from the spec text of C9: precision is the fraction, among the
judged rows only (null and negative judgments excluded from numerator and
denominator alike), of rows with judgment at least 1. -/
def specPrecision (judged_data : List (Option ℚ)) : Except PyError ℚ :=
  let judged := judged_data.filter (fun j => judgmentGe j 0)
  if judged.length = 0 then .error .zeroDivision
  else .ok (((judged.filter (fun j => judgmentGe j 1)).length : ℚ) /
    (judged.length : ℚ))

/-- The observed disagreement of the spec's alpha formula:
`D_o = (1/N) * Σ_unit [ Σ_{i,j in unit} metric(i,j) / (n_unit - 1) ]` over
the retained (= multiply-rated) units. -/
def specDo (data : List (List ℚ)) (metric : ℚ → ℚ → ℚ) : ℚ :=
  let units := alphaUnits data
  let N : ℚ := ((units.map List.length).sum : ℕ)
  ((units.map (fun u => pairSum metric u u / ((u.length : ℚ) - 1))).sum) / N

/-- The expected disagreement of the spec's alpha formula:
`D_e = (1/(N*(N-1))) * Σ_unit Σ_other-unit Σ_{i in unit, j in other} metric(i,j)`. -/
def specDe (data : List (List ℚ)) (metric : ℚ → ℚ → ℚ) : ℚ :=
  let units := alphaUnits data
  let N : ℚ := ((units.map List.length).sum : ℕ)
  ((units.map (fun u => (units.map (fun v => pairSum metric u v)).sum)).sum) /
    (N * (N - 1))

/-! ### Proof scaffolding -/

/-- Weighted sum `Σ gᵢ·wᵢ` of two parallel lists (truncating at the shorter),
used to analyse `dcg` as gains paired with positional discounts. -/
noncomputable def wsum : List ℝ → List ℝ → ℝ
  | g :: gs, w :: ws => g * w + wsum gs ws
  | _, _ => 0

/-- The gain `2**j - 1` of a judgment. -/
noncomputable def gain (j : ℝ) : ℝ :=
  (2:ℝ) ^ j - 1

/-- The positional discount `1 / log2(i + 2)` of a 0-based index. -/
noncomputable def discount (i : ℕ) : ℝ :=
  1 / Real.logb 2 ((i : ℝ) + 2)

/-! ## C10 — `dcg` silently truncates to the shorter of its two arguments -/

/-- C10: when the judgment and index sequences have different lengths, `dcg`
does not fail: `zip` truncates, so it returns the sum over only the first
`min(len(judgments), len(indices))` positional pairs (the same holds for the
textually identical `_calc_dcg` of `arcs/measure_ndcg.py`). -/
theorem dcg_truncates_at_min_length (J : List ℝ) (I : List ℕ) :
    dcg J I = dcg (J.take (min J.length I.length)) (I.take (min J.length I.length)) ∧
    (I.zip J).length = min J.length I.length ∧
    calc_dcg J I = dcg J I := by
  have hzip : I.zip J =
      (I.take (min J.length I.length)).zip (J.take (min J.length I.length)) := by
    rw [List.zip_eq_zipWith, List.zip_eq_zipWith, ← List.take_zipWith,
      List.take_of_length_le]
    rw [List.length_zipWith]
    omega
  refine ⟨?_, ?_, rfl⟩
  · simp only [dcg]
    rw [hzip]
  · rw [List.length_zip]
    omega

/-! ## C2 — the `dcg` sum formula, order-independence, empty case -/

/-- C2: for equal-length inputs, `dcg` is the sum of
`(2^judgment - 1) / log2(index + 2)` over the positional pairs, so it depends
only on the multiset of (judgment, index) pairs; `dcg [] [] = 0`. -/
theorem dcg_formula_and_pair_multiset (J : List ℝ) (I : List ℕ)
    (_hlen : J.length = I.length) :
    dcg ([] : List ℝ) [] = 0 ∧
    dcg J I = ((J.zip I).map
      (fun p => ((2:ℝ) ^ p.1 - 1) / Real.logb 2 ((p.2 : ℝ) + 2))).sum ∧
    (∀ (J' : List ℝ) (I' : List ℕ), J'.length = I'.length →
      List.Perm (I.zip J) (I'.zip J') → dcg J I = dcg J' I') := by
  refine ⟨rfl, ?_, ?_⟩
  · simp only [dcg]
    rw [← List.zip_swap I J, List.map_map]
    rfl
  · intro J' I' _hlen hperm
    simp only [dcg]
    exact (hperm.map _).sum_eq

/-- Witness for C2 at concrete inputs: swapping the two (index, judgment)
pairs leaves the value unchanged. -/
theorem dcg_formula_and_pair_multiset_witness :
    dcg [(1:ℝ), 2] [0, 1] = dcg [(2:ℝ), 1] [1, 0] :=
  (dcg_formula_and_pair_multiset [1, 2] [0, 1] rfl).2.2 [2, 1] [1, 0] rfl
    (List.Perm.swap _ _ _)

/-! ## C1 — `ndcg` is the `dcg` quotient, with the documented defaults -/

/-- C1: `ndcg(J, indices, ideal_judgments)` is
`dcg(J, indices) / dcg(ideal_judgments, indices)`; an omitted `indices`
defaults to `0..len(J)-1` in the supplied order and an omitted
`ideal_judgments` to `J` sorted descending (`sortDesc J`, which the last two
conjuncts identify as the descending-order permutation of `J`). -/
theorem ndcg_quotient_and_defaults (J : List ℝ) (indices : Option (List ℕ))
    (ideal_judgments : Option (List ℝ))
    (hden : dcg (ideal_judgments.getD (sortDesc J))
      (indices.getD (List.range J.length)) ≠ 0) :
    ndcg J indices ideal_judgments =
      .ok (dcg J (indices.getD (List.range J.length)) /
        dcg (ideal_judgments.getD (sortDesc J)) (indices.getD (List.range J.length))) ∧
    List.Perm (sortDesc J) J ∧ List.Sorted (· ≥ ·) (sortDesc J) := by
  refine ⟨?_, List.perm_insertionSort _ _, List.sorted_insertionSort _ _⟩
  simp only [ndcg]
  rw [if_neg hden]

/-- Witness for C1: a singleton judgment list with both optional arguments
omitted; the ideal DCG is `(2^1 - 1)/log2(2) = 1 ≠ 0`. -/
theorem ndcg_quotient_and_defaults_witness :
    ndcg [(1:ℝ)] none none =
      .ok (dcg [(1:ℝ)] ((none : Option (List ℕ)).getD (List.range 1)) /
        dcg ((none : Option (List ℝ)).getD (sortDesc [1]))
          ((none : Option (List ℕ)).getD (List.range 1))) ∧
    List.Perm (sortDesc [(1:ℝ)]) [1] ∧ List.Sorted (· ≥ ·) (sortDesc [(1:ℝ)]) :=
  ndcg_quotient_and_defaults [1] none none (by
    simp [sortDesc, List.insertionSort, List.orderedInsert, dcg, List.range_succ, Real.rpow_one]
    norm_num)

/-! ## C3 — a zero ideal DCG surfaces as an explicit failure -/

/-- C3: when the ideal DCG denominator is zero, `ndcg` raises
`ZeroDivisionError` (modelled as `Except.error`), and `compute_ndcg` catches
the error and returns `None` — in neither case is the result silently
coerced to a numeric value. -/
theorem ndcg_zero_ideal_errors :
    (∀ (J : List ℝ) (indices : Option (List ℕ)) (ideal : Option (List ℝ)),
      dcg (ideal.getD (sortDesc J)) (indices.getD (List.range J.length)) = 0 →
      ndcg J indices ideal = .error .zeroDivision) ∧
    (∀ (iterable accept : List ℝ) (indices : Option (List ℕ)),
      calc_dcg (sortDesc iterable) (resolveIndices iterable indices) = 0 →
      compute_ndcg iterable accept indices = none) := by
  constructor
  · intro J indices ideal h
    simp only [ndcg]
    rw [if_pos h]
  · intro iterable accept indices h
    simp only [compute_ndcg]
    rw [if_pos h]

/-- Witness for C3: a single all-zero judgment makes the ideal DCG zero, so
`ndcg` errors and `compute_ndcg` returns `None`. -/
theorem ndcg_zero_ideal_errors_witness :
    ndcg [(0:ℝ)] none none = .error .zeroDivision ∧
    compute_ndcg [(0:ℝ)] [] none = none :=
  ⟨ndcg_zero_ideal_errors.1 [0] none none (by
      simp [sortDesc, List.insertionSort, List.orderedInsert, dcg, List.range_succ, Real.rpow_zero]),
   ndcg_zero_ideal_errors.2 [0] [] none (by
      simp [sortDesc, List.insertionSort, List.orderedInsert, calc_dcg,
        resolveIndices, List.range_succ, Real.rpow_zero])⟩

/-! ## Krippendorff's alpha: foldl accumulation as sums -/

/-- A `+=` accumulation loop is the starting value plus the sum of the
per-element contributions. -/
theorem foldl_add_eq_sum (l : List (List ℚ)) (f : List ℚ → ℚ) (c : ℚ) :
    l.foldl (fun acc x => acc + f x) c = c + (l.map f).sum := by
  induction l generalizing c with
  | nil => simp
  | cons a t ih =>
    rw [List.foldl_cons, ih, List.map_cons, List.sum_cons]
    ring

/-- The nested `De +=` loop accumulates the double sum of `pairSum` over all
ordered pairs of units. -/
theorem foldl_pairSum_nested (metric : ℚ → ℚ → ℚ) (units l : List (List ℚ))
    (c : ℚ) :
    l.foldl (fun acc grades =>
        units.foldl (fun acc2 g2 => acc2 + pairSum metric grades g2) acc) c =
      c + (l.map (fun grades =>
        (units.map (fun g2 => pairSum metric grades g2)).sum)).sum := by
  induction l generalizing c with
  | nil => simp
  | cons a t ih =>
    rw [List.foldl_cons, ih, foldl_add_eq_sum, List.map_cons, List.sum_cons]
    ring

/-- Each retained unit has at least two ratings, so a non-empty retained-unit
list carries at least two ratings in total. -/
theorem two_le_num_judgements (data : List (List ℚ))
    (hne : alphaUnits data ≠ []) :
    2 ≤ ((alphaUnits data).map List.length).sum := by
  obtain ⟨u, rest, h⟩ : ∃ u rest, alphaUnits data = u :: rest := by
    cases h : alphaUnits data with
    | nil => exact absurd h hne
    | cons u rest => exact ⟨u, rest, rfl⟩
  have hu : u ∈ alphaUnits data := h ▸ List.mem_cons_self u rest
  have h2 : 1 < u.length := by simpa using List.of_mem_filter hu
  rw [h, List.map_cons, List.sum_cons]
  omega

/-- On a non-empty retained-unit list, `krippendorff_alpha` reaches the final
division and is `1 - D_o/D_e`, failing exactly when `D_e = 0`. -/
theorem krippendorff_alpha_eval (data : List (List ℚ)) (metric : ℚ → ℚ → ℚ)
    (hne : alphaUnits data ≠ []) :
    krippendorff_alpha data metric =
      if specDe data metric = 0 then .error .zeroDivision
      else .ok (1 - specDo data metric / specDe data metric) := by
  have hN := two_le_num_judgements data hne
  have g1 : ¬(((alphaUnits data).map List.length).sum = 0) := by omega
  have hNQ : (2:ℚ) ≤ ((((alphaUnits data).map List.length).sum : ℕ) : ℚ) := by
    exact_mod_cast hN
  have g2 : ¬(((((alphaUnits data).map List.length).sum : ℕ) : ℚ) *
      (((((alphaUnits data).map List.length).sum : ℕ) : ℚ) - 1) = 0) := by
    intro h
    rcases mul_eq_zero.mp h with h | h <;> linarith
  simp only [krippendorff_alpha, specDo, specDe, foldl_add_eq_sum,
    foldl_pairSum_nested, zero_add]
  rw [if_neg g1, if_neg g2]

/-! ## C4 — the alpha value is `1 - D_o/D_e` with the literal double sums -/

/-- C4: whenever the computation completes (some unit is retained and the
expected disagreement is non-zero), `krippendorff_alpha` returns
`1 - D_o/D_e`, where `D_o` divides the per-unit double sums (self-comparisons
included) by `n_unit - 1` and then by `N`, and `D_e` is the nested double sum
over all ordered pairs of retained units divided by `N*(N-1)` — the spec's
`specDo` and `specDe`. -/
theorem krippendorff_alpha_formula (data : List (List ℚ))
    (metric : ℚ → ℚ → ℚ) (hne : alphaUnits data ≠ [])
    (hDe : specDe data metric ≠ 0) :
    krippendorff_alpha data metric =
      .ok (1 - specDo data metric / specDe data metric) := by
  rw [krippendorff_alpha_eval data metric hne, if_neg hDe]

/-- Witness for C4: two units, each rated `0` and `1`, under the interval
metric. -/
theorem krippendorff_alpha_formula_witness :
    krippendorff_alpha [[0, 1], [0, 1]] interval_metric =
      .ok (1 - specDo [[(0:ℚ), 1], [0, 1]] interval_metric /
        specDe [[(0:ℚ), 1], [0, 1]] interval_metric) :=
  krippendorff_alpha_formula [[0, 1], [0, 1]] interval_metric
    (by simp [alphaUnits])
    (by norm_num [specDe, alphaUnits, pairSum, interval_metric])

/-! ## C5 — when exactly the computation fails (corrected) -/

/-- Counterexample to C5 as stated: with a single retained unit (fewer than 2
units) whose ratings disagree, `krippendorff_alpha` does not fail — it
returns `0`. -/
theorem krippendorff_alpha_single_unit_no_failure :
    krippendorff_alpha [[0, 1]] interval_metric = .ok 0 ∧
    (alphaUnits [[(0:ℚ), 1]]).length = 1 := by
  constructor
  · norm_num [krippendorff_alpha, alphaUnits, pairSum, interval_metric]
  · norm_num [alphaUnits]

/-- C5 (amended): `krippendorff_alpha` fails with the division-by-zero
outcome exactly when `D_e = 0` or no unit at all survives the single-rating
filter; one retained unit alone does not force a failure. -/
theorem krippendorff_alpha_error_iff (data : List (List ℚ))
    (metric : ℚ → ℚ → ℚ) :
    krippendorff_alpha data metric = .error .zeroDivision ↔
      alphaUnits data = [] ∨ specDe data metric = 0 := by
  by_cases hne : alphaUnits data = []
  · simp only [krippendorff_alpha, hne]
    simp
  · rw [krippendorff_alpha_eval data metric hne]
    by_cases hDe : specDe data metric = 0
    · rw [if_pos hDe]
      simp [hDe]
    · rw [if_neg hDe]
      simp [hDe, hne]

/-! ## C6 — single-rating units do not affect the result -/

/-- C6: inserting a unit carrying exactly one (non-missing) rating anywhere
into the data leaves the value returned by `krippendorff_alpha` unchanged:
such units are excluded entirely by the `len(rating) > 1` filter. -/
theorem krippendorff_alpha_single_rating_unit_no_effect
    (pre post : List (List ℚ)) (u : List ℚ) (metric : ℚ → ℚ → ℚ)
    (hu : u.length = 1) :
    krippendorff_alpha (pre ++ u :: post) metric =
      krippendorff_alpha (pre ++ post) metric := by
  have hfilter : alphaUnits (pre ++ u :: post) = alphaUnits (pre ++ post) := by
    simp only [alphaUnits, List.filter_append, List.filter_cons, hu]
    simp
  simp only [krippendorff_alpha, hfilter]

/-- Witness for C6: appending the single-rating unit `[5]` leaves the alpha
of `[[0, 1]]` unchanged. -/
theorem krippendorff_alpha_single_rating_unit_no_effect_witness :
    krippendorff_alpha [[0, 1], [5]] interval_metric =
      krippendorff_alpha [[(0:ℚ), 1]] interval_metric :=
  krippendorff_alpha_single_rating_unit_no_effect [[0, 1]] [] [5]
    interval_metric rfl

/-! ## C7 — what `ordinal_metric` actually computes (corrected) -/

/-- Twice the sum of `k + c` for `k` in `range n`, in closed form. -/
theorem range_sum_linear (n : ℕ) (c : ℤ) :
    2 * ((List.range n).map (fun k : ℕ => (k:ℤ) + c)).sum =
      (n:ℤ) * ((n:ℤ) - 1) + 2 * (n:ℤ) * c := by
  induction n with
  | zero => simp
  | succ m ih =>
    rw [List.range_succ, List.map_append, List.sum_append]
    simp only [List.map_cons, List.map_nil, List.sum_cons, List.sum_nil]
    push_cast
    push_cast at ih
    linear_combination ih

/-- Twice the inner sum of `ordinal_metric`, in closed form. -/
theorem xrange_sum (a b sub : ℤ) (hab : a ≤ b) :
    2 * ((xrange a b).map (fun x => x - sub)).sum =
      (b - a) * (b - a - 1) + 2 * (b - a) * (a - sub) := by
  unfold xrange
  rw [List.map_map]
  have hfun : ((fun x => x - sub) ∘ fun k : ℕ => a + (k:ℤ)) =
      fun k : ℕ => (k:ℤ) + (a - sub) := by
    funext k
    simp only [Function.comp]
    ring
  rw [hfun, range_sum_linear]
  have hn : (((b - a).toNat : ℤ)) = b - a := Int.toNat_of_nonneg (by omega)
  rw [hn]

/-- Counterexample to C7 as stated: at ranks `0` and `2` the code's
`ordinal_metric` gives `1`, while the spec's strictly-between /
distance-from-midpoint formula gives `0` (the only strictly intermediate
rank is `1`, which sits exactly on the midpoint). -/
theorem ordinal_metric_spec_mismatch :
    ordinal_metric 0 2 = 1 ∧ specOrdinalMetric 0 2 = 0 := by
  constructor
  · decide
  · rw [specOrdinalMetric, show Finset.Ioo (min (0:ℤ) 2) (max (0:ℤ) 2) = {1} from rfl]
    norm_num

/-- C7 (amended): `ordinal_metric(a, b)` is the square of the sum, over the
ranks `x` with `min(a,b) ≤ x < max(a,b)` (lower endpoint included, upper
excluded), of `x` minus the floor of the midpoint of `a` and `b`; in closed
form this is `(|b - a|/2)²` when `b - a` is even and `0` when it is odd. -/
theorem ordinal_metric_closed_form :
    (∀ a b : ℤ, ordinal_metric a b = ordinal_metric b a) ∧
    (∀ a b : ℤ, a ≤ b →
      ordinal_metric a b =
        if (b - a) % 2 = 0 then ((b - a) / 2) ^ 2 else 0) := by
  constructor
  · intro a b
    simp only [ordinal_metric, min_comm, max_comm]
  · intro a b hab
    simp only [ordinal_metric, min_eq_left hab, max_eq_right hab]
    rw [Int.fdiv_eq_ediv _ (by norm_num)]
    have h2S := xrange_sum a b ((a + b) / 2) hab
    rcases Int.emod_two_eq (b - a) with h | h
    · obtain ⟨m, hm⟩ : ∃ m, b - a = 2 * m := ⟨(b - a) / 2, by omega⟩
      have hsub : (a + b) / 2 = a + m := by omega
      rw [hsub] at h2S ⊢
      rw [hm] at h2S
      have h2S' : 2 * ((xrange a b).map (fun x => x - (a + m))).sum = -2 * m := by
        linear_combination h2S
      have hS : ((xrange a b).map (fun x => x - (a + m))).sum = -m := by omega
      rw [if_pos h, hS, show (b - a) / 2 = m by omega]
      ring
    · obtain ⟨m, hm⟩ : ∃ m, b - a = 2 * m + 1 := ⟨(b - a - 1) / 2, by omega⟩
      have hsub : (a + b) / 2 = a + m := by omega
      rw [hsub] at h2S ⊢
      rw [hm] at h2S
      have h2S' : 2 * ((xrange a b).map (fun x => x - (a + m))).sum = 0 := by
        linear_combination h2S
      have hS : ((xrange a b).map (fun x => x - (a + m))).sum = 0 := by omega
      rw [if_neg (by omega), hS]
      ring

/-- Witness for the amended C7 at ranks `1` and `5`: the even-gap branch,
value `((5-1)/2)² = 4`. -/
theorem ordinal_metric_closed_form_witness :
    ordinal_metric 1 5 =
      if ((5:ℤ) - 1) % 2 = 0 then (((5:ℤ) - 1) / 2) ^ 2 else 0 :=
  ordinal_metric_closed_form.2 1 5 (by decide)

/-! ## C9 — the `precision` return line ignores its own filters (code bug) -/

/-- C9 (code bug): on rows with judgments `[null, -1, 2]` the code returns
`1/3` — it counts `judgment >= 1` rows against the *unfiltered* row count —
whereas the spec's precision over judged rows only (`specPrecision`) is
`1/1 = 1`.  The function's own dead bindings (`judged_group_df`) show the
filters were meant to be applied. -/
theorem precision_ignores_filters :
    precision [none, some (-1), some 2] = .ok (1/3) ∧
    specPrecision [none, some (-1), some 2] = .ok 1 ∧
    ((1:ℚ)/3) ≠ 1 := by
  refine ⟨?_, ?_, by norm_num⟩
  · norm_num [precision, judgmentGe]
  · norm_num [specPrecision, judgmentGe]

/-! ## C8 — bounds of NDCG (corrected)

The inequality `dcg J I ≤ dcg (sortDesc J) I` is a rearrangement bound: it
holds when the discounts attached to successive positions are non-increasing,
which the supplied index sequence `I` must guarantee — the claim's arbitrary
`I` breaks it. -/

theorem wsum_nil_left (W : List ℝ) : wsum [] W = 0 := by
  cases W <;> rfl

theorem wsum_nil_right (G : List ℝ) : wsum G [] = 0 := by
  cases G <;> rfl

theorem wsum_cons (g w : ℝ) (gs ws : List ℝ) :
    wsum (g :: gs) (w :: ws) = g * w + wsum gs ws := rfl

/-- A weighted sum of non-negative gains against non-negative weights is
non-negative. -/
theorem wsum_nonneg (G : List ℝ) : ∀ W : List ℝ, (∀ g ∈ G, 0 ≤ g) →
    (∀ w ∈ W, 0 ≤ w) → 0 ≤ wsum G W := by
  induction G with
  | nil => intro W _ _; rw [wsum_nil_left]
  | cons g gs ih =>
    intro W hG hW
    cases W with
    | nil => rw [wsum_nil_right]
    | cons w ws =>
      rw [wsum_cons]
      have h1 : 0 ≤ g * w :=
        mul_nonneg (hG g (List.mem_cons_self g gs)) (hW w (List.mem_cons_self w ws))
      have h2 : 0 ≤ wsum gs ws :=
        ih ws (fun x hx => hG x (List.mem_cons_of_mem g hx))
          (fun x hx => hW x (List.mem_cons_of_mem w hx))
      linarith

/-- Against a non-increasing, non-negative weight list, moving a list element
from the front to its descending-order insertion point cannot decrease the
weighted sum. -/
theorem wsum_orderedInsert_le (a : ℝ) (S : List ℝ) :
    ∀ W : List ℝ, List.Sorted (· ≥ ·) W → (∀ w ∈ W, 0 ≤ w) →
      wsum (a :: S) W ≤ wsum (List.orderedInsert (· ≥ ·) a S) W := by
  induction S with
  | nil => intro W _ _; rw [List.orderedInsert]
  | cons b S' ih =>
    intro W hWs hW0
    rw [List.orderedInsert]
    by_cases hab : a ≥ b
    · rw [if_pos hab]
    · rw [if_neg hab]
      have hba : a ≤ b := le_of_not_le hab
      cases W with
      | nil => rw [wsum_nil_right, wsum_nil_right]
      | cons w0 W' =>
        cases W' with
        | nil =>
          rw [wsum_cons, wsum_cons, wsum_nil_right, wsum_nil_right]
          have := mul_le_mul_of_nonneg_right hba (hW0 w0 (List.mem_cons_self _ _))
          linarith
        | cons w1 W'' =>
          have hw01 : w1 ≤ w0 :=
            (List.sorted_cons.mp hWs).1 w1 (List.mem_cons_self _ _)
          have htail_s : List.Sorted (· ≥ ·) (w1 :: W'') :=
            (List.sorted_cons.mp hWs).2
          have htail_0 : ∀ w ∈ w1 :: W'', 0 ≤ w :=
            fun w hw => hW0 w (List.mem_cons_of_mem w0 hw)
          have hIH := ih (w1 :: W'') htail_s htail_0
          simp only [wsum_cons] at hIH ⊢
          have hprod : 0 ≤ (b - a) * (w0 - w1) :=
            mul_nonneg (sub_nonneg.mpr hba) (sub_nonneg.mpr hw01)
          nlinarith [hIH, hprod]

/-- Rearrangement bound: sorting the gains into descending order cannot
decrease their weighted sum against a non-increasing, non-negative weight
list. -/
theorem wsum_le_wsum_sortDesc (G : List ℝ) :
    ∀ W : List ℝ, List.Sorted (· ≥ ·) W → (∀ w ∈ W, 0 ≤ w) →
      wsum G W ≤ wsum (G.insertionSort (· ≥ ·)) W := by
  induction G with
  | nil => intro W _ _; rw [List.insertionSort]
  | cons a t ih =>
    intro W hWs hW0
    rw [List.insertionSort]
    cases W with
    | nil => rw [wsum_nil_right, wsum_nil_right]
    | cons w W' =>
      have htail_s : List.Sorted (· ≥ ·) W' := (List.sorted_cons.mp hWs).2
      have htail_0 : ∀ x ∈ W', 0 ≤ x :=
        fun x hx => hW0 x (List.mem_cons_of_mem w hx)
      have h1 : wsum (a :: t) (w :: W') ≤
          wsum (a :: t.insertionSort (· ≥ ·)) (w :: W') := by
        rw [wsum_cons, wsum_cons]
        have := ih W' htail_s htail_0
        linarith
      exact h1.trans (wsum_orderedInsert_le a (t.insertionSort (· ≥ ·))
        (w :: W') hWs hW0)

/-- `dcg` is the weighted sum of the gains `2^j - 1` against the positional
discounts `1/log2(i+2)`. -/
theorem dcg_eq_wsum (J : List ℝ) : ∀ I : List ℕ,
    dcg J I = wsum (J.map gain) (I.map discount) := by
  induction J with
  | nil =>
    intro I
    cases I <;> simp [dcg, wsum_nil_left]
  | cons j J' ih =>
    intro I
    cases I with
    | nil => simp [dcg, wsum_nil_right]
    | cons i I' =>
      have hrec := ih I'
      simp only [dcg] at hrec ⊢
      simp only [List.zip_cons_cons, List.map_cons, List.sum_cons, wsum_cons]
      rw [hrec, gain, discount, div_eq_mul_one_div]

/-- The judgment gain is monotone. -/
theorem gain_mono {x y : ℝ} (h : x ≤ y) : gain x ≤ gain y := by
  rw [gain, gain]
  have h2 : (2:ℝ) ^ x ≤ (2:ℝ) ^ y :=
    (Real.rpow_le_rpow_left_iff one_lt_two).mpr h
  linarith

/-- A non-negative judgment has non-negative gain. -/
theorem gain_nonneg {j : ℝ} (h : 0 ≤ j) : 0 ≤ gain j := by
  have h1 : gain 0 ≤ gain j := gain_mono h
  have h0 : gain 0 = 0 := by rw [gain, Real.rpow_zero]; ring
  linarith

/-- Discounts are positive. -/
theorem discount_pos (i : ℕ) : 0 < discount i := by
  rw [discount]
  have : (0:ℝ) < Real.logb 2 ((i : ℝ) + 2) := by
    apply Real.logb_pos one_lt_two
    have : (0:ℝ) ≤ (i : ℝ) := Nat.cast_nonneg i
    linarith
  positivity

/-- Mapping `gain` commutes with descending sorting. -/
theorem map_gain_sortDesc (J : List ℝ) :
    (sortDesc J).map gain = sortDesc (J.map gain) := by
  simp only [sortDesc]
  exact List.eq_of_perm_of_sorted
    (((List.perm_insertionSort (· ≥ ·) J).map gain).trans
      (List.perm_insertionSort (· ≥ ·) (J.map gain)).symm)
    (List.Pairwise.map gain (fun a b (hab : a ≥ b) => @gain_mono b a hab)
      (List.sorted_insertionSort (· ≥ ·) J))
    (List.sorted_insertionSort (· ≥ ·) (J.map gain))

/-- A non-decreasing index list yields a non-increasing discount list. -/
theorem discount_map_sorted (I : List ℕ) (hI : List.Sorted (· ≤ ·) I) :
    List.Sorted (· ≥ ·) (I.map discount) := by
  apply List.Pairwise.map discount _ hI
  intro i j hij
  rw [discount, discount]
  apply one_div_le_one_div_of_le
  · apply Real.logb_pos one_lt_two
    have : (0:ℝ) ≤ (i : ℝ) := Nat.cast_nonneg i
    linarith
  · apply Real.logb_le_logb_of_le one_lt_two
    · have : (0:ℝ) ≤ (i : ℝ) := Nat.cast_nonneg i
      linarith
    · have : (i : ℝ) ≤ (j : ℝ) := Nat.cast_le.mpr hij
      linarith

/-- Counterexample to C8 as stated: with the out-of-order index sequence
`[5, 0]` and judgments `[0, 3]`, `ndcg` against the descending-sorted ideal
is `log2(7) ≈ 2.81 > 1`. -/
theorem ndcg_above_one_for_unsorted_indices :
    ndcg [0, 3] (some [5, 0]) (some (sortDesc [0, 3])) =
      .ok (Real.logb 2 7) ∧ 1 < Real.logb 2 7 := by
  have hlogpos : (0:ℝ) < Real.logb 2 7 := Real.logb_pos one_lt_two (by norm_num)
  have hsort : sortDesc [(0:ℝ), 3] = [3, 0] := by
    norm_num [sortDesc, List.insertionSort, List.orderedInsert]
  have hpow3 : (2:ℝ) ^ (3:ℝ) = 8 := by
    rw [show (3:ℝ) = ((3:ℕ):ℝ) by norm_num, Real.rpow_natCast]
    norm_num
  have hden : dcg [3, 0] [5, 0] = 7 / Real.logb 2 7 := by
    norm_num [dcg, Real.rpow_zero, hpow3]
  have hnum : dcg [0, 3] [5, 0] = 7 := by
    norm_num [dcg, Real.rpow_zero, hpow3]
  constructor
  · simp only [ndcg, Option.getD_some, hsort, hden, hnum]
    have hdpos : 0 < 7 / Real.logb 2 7 := div_pos (by norm_num) hlogpos
    rw [if_neg hdpos.ne']
    congr 1
    rw [div_div_eq_mul_div, mul_div_cancel_left₀ _ (by norm_num : (7:ℝ) ≠ 0)]
  · have h2 : Real.logb 2 2 = 1 := Real.logb_self_eq_one one_lt_two
    calc (1:ℝ) = Real.logb 2 2 := h2.symm
      _ < Real.logb 2 7 := Real.logb_lt_logb one_lt_two (by norm_num) (by norm_num)

/-- C8 (amended): for judgments `J` and a *non-decreasing* index sequence `I`
of equal non-zero length (the default `0..n-1` is such a sequence), with all
judgments non-negative, every value `ndcg` returns against the
descending-sorted ideal lies in `[0, 1]`.  For out-of-order index sequences
the bound fails (see the counterexample). -/
theorem ndcg_in_unit_interval_for_monotone_indices (J : List ℝ) (I : List ℕ)
    (_hlen : J.length = I.length) (_hne : J ≠ [])
    (hJ : ∀ j ∈ J, 0 ≤ j) (hI : List.Sorted (· ≤ ·) I) (v : ℝ)
    (hok : ndcg J (some I) (some (sortDesc J)) = .ok v) :
    0 ≤ v ∧ v ≤ 1 := by
  simp only [ndcg, Option.getD_some] at hok
  by_cases hden : dcg (sortDesc J) I = 0
  · rw [if_pos hden] at hok
    exact absurd hok (by simp)
  · rw [if_neg hden] at hok
    have hv : v = dcg J I / dcg (sortDesc J) I := by
      injection hok with hv
      exact hv.symm
    have hWs : List.Sorted (· ≥ ·) (I.map discount) := discount_map_sorted I hI
    have hW0 : ∀ w ∈ I.map discount, 0 ≤ w := by
      intro w hw
      obtain ⟨i, _, rfl⟩ := List.mem_map.mp hw
      exact (discount_pos i).le
    have hG0 : ∀ g ∈ J.map gain, 0 ≤ g := by
      intro g hg
      obtain ⟨j, hj, rfl⟩ := List.mem_map.mp hg
      exact gain_nonneg (hJ j hj)
    have hle : dcg J I ≤ dcg (sortDesc J) I := by
      rw [dcg_eq_wsum J I, dcg_eq_wsum (sortDesc J) I, map_gain_sortDesc, sortDesc]
      exact wsum_le_wsum_sortDesc (J.map gain) (I.map discount) hWs hW0
    have hnum0 : 0 ≤ dcg J I := by
      rw [dcg_eq_wsum J I]
      exact wsum_nonneg _ _ hG0 hW0
    have hdenpos : 0 < dcg (sortDesc J) I :=
      lt_of_le_of_ne (hnum0.trans hle) (Ne.symm hden)
    rw [hv]
    exact ⟨div_nonneg hnum0 hdenpos.le, (div_le_one hdenpos).mpr hle⟩

/-- Witness for the amended C8: judgments `[1]` with the (sorted) index list
`[0]`; the returned value is `1 ∈ [0, 1]`. -/
theorem ndcg_in_unit_interval_for_monotone_indices_witness :
    0 ≤ (1:ℝ) ∧ (1:ℝ) ≤ 1 :=
  ndcg_in_unit_interval_for_monotone_indices [1] [0] rfl (by simp)
    (by intro j hj; simp at hj; rw [hj]; norm_num) (by simp) 1
    (by
      simp only [ndcg, Option.getD_some]
      have hsort : sortDesc [(1:ℝ)] = [1] := by
        simp [sortDesc, List.insertionSort, List.orderedInsert]
      rw [hsort]
      have h1 : dcg [1] [0] = 1 := by
        simp [dcg, Real.rpow_one]
        norm_num
      rw [h1]
      norm_num)

end Arcs
